import Mathlib

/-!
Shallow embedding of the rusty-notes core (src/main.rs): the note-collection
state machine (notes, open tabs, current selection, confirmation dialog),
the autosave sweep, the word/char counter, the title sanitizer and the
line-based Markdown renderer.

Modelling conventions:
* Rust `String` is Lean `String`, manipulated through its `.data` char list
  so that every definition reduces in the kernel.
* `PathBuf` is a `String`; `dir.join(name)` is `dir ++ "/" ++ name`.
* `Instant` is a `Nat` timestamp; `now.duration_since(t)` is `now - t`
  (saturating, as in Rust).
* File-system calls are oracles: a `Bool` (or `Nat → Bool`) argument tells
  whether the corresponding `fs::write` / `fs::rename` succeeds.  Failed
  calls leave the state unchanged, exactly as in the source.
* `Vec::sort_by` is a stable sort; it is modelled by `List.insertionSort`,
  which is stable, hence extensionally equal to the source's sort for the
  comparator used here.
* `char::is_alphanumeric`, `to_lowercase`, `trim` and `split_whitespace`
  use Unicode tables in Rust; they are modelled exactly on the code points
  the development evaluates them on (ASCII, plus the Latin-1 range for
  `is_alphanumeric`), as documented on each definition.
-/

/-- Lexicographic comparison of char lists by code point.  Models Rust
`str::cmp`, which compares UTF-8 bytes; byte order coincides with code-point
order. -/
def charListLe : List Char → List Char → Bool
  | [], _ => true
  | _ :: _, [] => false
  | a :: as, b :: bs =>
    if a.toNat < b.toNat then true
    else if b.toNat < a.toNat then false
    else charListLe as bs

/-- Lowercased key used by the sort comparator
`a.title.to_lowercase().cmp(&b.title.to_lowercase())`.  `Char.toLower`
lowers ASCII letters; Rust's full Unicode lowercasing agrees with it on the
ASCII titles this development evaluates. -/
def lower_key (s : String) : List Char := s.data.map Char.toLower

/-- Latin-1 code points (0xAA .. 0xFF) on which Rust `char::is_alphanumeric`
returns true: ordinal indicators, micro sign, superscripts, vulgar fractions
and the accented letters. -/
def latin1_alnum (c : Char) : Bool :=
  let n := c.toNat
  n = 0xAA || n = 0xB2 || n = 0xB3 || n = 0xB5 || n = 0xB9 || n = 0xBA ||
  n = 0xBC || n = 0xBD || n = 0xBE ||
  (0xC0 ≤ n && n ≤ 0xD6) || (0xD8 ≤ n && n ≤ 0xF6) || (0xF8 ≤ n && n ≤ 0xFF)

/-- Model of Rust `char::is_alphanumeric` (Unicode Alphabetic or Number).
Exact for every code point below U+0100; code points above that range are
outside the modelled fragment (the program only feeds the sanitizer its own
ASCII `Note_<N>` titles and user input, and the development only evaluates
it below U+0100). -/
def rustIsAlphanumeric (c : Char) : Bool :=
  c.isAlphanum || latin1_alnum c

/-- Title sanitizer shared by `create_note` (line 92) and `rename_note`
(line 145): `title.replace(|c| !c.is_alphanumeric() && c != '_', "_")`. -/
def sanitize_title (s : String) : String :=
  ⟨s.data.map (fun c => if !(rustIsAlphanumeric c) && c ≠ '_' then '_' else c)⟩

/-- True when the char list ends in `.md`. -/
def ends_with_md (l : List Char) : Bool :=
  match l.reverse with
  | 'd' :: 'm' :: '.' :: _ => true
  | _ => false

/-- Fueled worker for `rust_trim_end_matches_md`; each step strips one
trailing `.md`, so `l.length` is enough fuel. -/
def trim_end_md : Nat → List Char → List Char
  | 0, l => l
  | n + 1, l => if ends_with_md l then trim_end_md n (l.dropLast.dropLast.dropLast) else l

/-- Model of `safe_title.trim_end_matches(".md")` (line 96): repeatedly
strips a trailing `.md`. -/
def rust_trim_end_matches_md (s : String) : String :=
  ⟨trim_end_md s.data.length s.data⟩

/-- One note (struct `Note`, lines 7-13).  `last_saved` is a `Nat`
timestamp standing for the `Instant`. -/
structure Note where
  title : String
  content : String
  path : String
  unsaved_changes : Bool
  last_saved : Nat
deriving DecidableEq

/-- The two destructive dialog actions (enum `DialogAction`, lines 23-27). -/
inductive DialogAction where
  | DeleteNote
  | CloseUnsavedTab
deriving DecidableEq

/-- Pending-confirmation slot (struct `ConfirmationDialog`, lines 15-21).
The source field `open` is a Lean keyword and is rendered `is_open`. -/
structure ConfirmationDialog where
  is_open : Bool
  title : String
  message : String
  action_type : DialogAction
  target_index : Option Nat
deriving DecidableEq

/-- The core state (struct `AppState`, lines 29-41), restricted to the
fields the note-collection state machine reads or writes; presentation-only
fields (search query, theme, preview flag, title-editing buffer) are
omitted. -/
structure AppState where
  notes : List Note
  open_tabs : List Nat
  current_tab : Option Nat
  notes_dir : String
  confirmation_dialog : ConfirmationDialog
  autosave_interval : Nat
deriving DecidableEq

/-- Comparator of the three `sort_by` calls (lines 65, 104, 165):
case-insensitive title order. -/
def NoteLe (a b : Note) : Prop :=
  charListLe (lower_key a.title) (lower_key b.title) = true

instance : DecidableRel NoteLe := fun _ _ =>
  inferInstanceAs (Decidable (_ = true))

/-- Stable sort of the collection; models
`notes.sort_by(|a, b| a.title.to_lowercase().cmp(&b.title.to_lowercase()))`. -/
def sort_notes (l : List Note) : List Note :=
  List.insertionSort NoteLe l

/-- Generated title `Note_<N>`, N = current note count + 1 (line 91). -/
def create_title (st : AppState) : String :=
  "Note_" ++ toString (st.notes.length + 1)

/-- The sanitized generated title (line 92). -/
def create_safe_title (st : AppState) : String :=
  sanitize_title (create_title st)

/-- Path of a freshly created note: sanitized title joined to the notes
directory with extension `.md` (line 93). -/
def create_path (st : AppState) : String :=
  st.notes_dir ++ "/" ++ create_safe_title st ++ ".md"

/-- The in-memory note `create_note` pushes (lines 95-101). -/
def created_note (st : AppState) (now : Nat) : Note :=
  { title := rust_trim_end_matches_md (create_safe_title st)
    content := ""
    path := create_path st
    unsaved_changes := false
    last_saved := now }

/-- The collection after push and re-sort (lines 102-104). -/
def create_sorted (st : AppState) (now : Nat) : List Note :=
  sort_notes (st.notes ++ [created_note st now])

/-- Post-sort position of the new note, looked up by title,
`unwrap_or(0)` (line 107). -/
def create_new_idx (st : AppState) (now : Nat) : Nat :=
  ((create_sorted st now).findIdx? (fun n => n.title = create_safe_title st)).getD 0

/-- `AppState::create_note` (lines 90-111).  `write_ok` is the outcome of
`fs::write(&path, "")`; `now` stands for `Instant::now()`.  The source's
local bindings are the helper definitions above. -/
def create_note (st : AppState) (now : Nat) (write_ok : Bool) : AppState :=
  if write_ok then
    { st with
        notes := create_sorted st now
        open_tabs := st.open_tabs ++ [create_new_idx st now]
        current_tab := some (create_new_idx st now) }
  else st

/-- Tab remap of `delete_note` (lines 118-123): drop tabs at the deleted
index and shift the ones above it down. -/
def delete_tabs (st : AppState) (i : Nat) : List Nat :=
  (st.open_tabs.filter (fun t => t ≠ i)).map (fun t => if i < t then t - 1 else t)

/-- Selection remap of `delete_note` (lines 126-132), before the final
empty-collection override. -/
def delete_cur (st : AppState) (i : Nat) : Option Nat :=
  match st.current_tab with
  | some current =>
      if current = i then (delete_tabs st i).getLast?
      else if i < current then some (current - 1)
      else some current
  | none => none

/-- `AppState::delete_note` (lines 113-137): remove the file (best-effort),
drop the note, remap tab and selection indices, and clear the selection
when the collection became empty (lines 134-136).  The caller must supply
an in-range `i`; the source would panic at `self.notes[i]` otherwise (see
`delete_note_checked`). -/
def delete_note (st : AppState) (i : Nat) : AppState :=
  { st with
      notes := st.notes.eraseIdx i
      open_tabs := delete_tabs st i
      current_tab := if (st.notes.eraseIdx i).isEmpty then none else delete_cur st i }

/-- Totality wrapper recording that `delete_note` begins with
`self.notes[i].path`, which panics when `i` is out of range: `none` models
that panic. -/
def delete_note_checked (st : AppState) (i : Nat) : Option AppState :=
  if i < st.notes.length then some (delete_note st i) else none

/-- The note after a successful `fs::rename` (lines 157-159): new sanitized
title, new path, dirty flag set. -/
def renamed_note (st : AppState) (note : Note) (new_title : String) : Note :=
  { note with
      title := sanitize_title new_title
      path := st.notes_dir ++ "/" ++ sanitize_title new_title ++ ".md"
      unsaved_changes := true }

/-- The collection after overwriting the note at `idx` and re-sorting
(lines 156-165). -/
def rename_sorted (st : AppState) (idx : Nat) (note : Note) (new_title : String) : List Note :=
  sort_notes (st.notes.set idx (renamed_note st note new_title))

/-- Post-sort lookup of the renamed note by its OLD path,
`unwrap_or(current_idx)` (line 168).  `note.path` was already overwritten
before the sort, so the lookup misses whenever paths are unique and the
fallback `idx` is what the source actually uses. -/
def rename_new_idx (st : AppState) (idx : Nat) (note : Note) (new_title : String) : Nat :=
  (((rename_sorted st idx note new_title).findIdx? (fun n => n.path = note.path)).getD idx)

def rename_cur (st : AppState) (idx : Nat) (note : Note) (new_title : String) : Option Nat :=
  match st.current_tab with
  | some c => if c = idx then some (rename_new_idx st idx note new_title) else some c
  | none => none

/-- `AppState::rename_note` (lines 139-185): no-op on an empty title, a
missing index or an unchanged sanitized title; on `fs::rename` success the
note is overwritten, the collection re-sorted and tab/selection indices
remapped through `rename_new_idx`; on failure nothing changes.  `rename_ok`
is the outcome of `fs::rename(&note.path, &new_path)`. -/
def rename_note (st : AppState) (idx : Nat) (new_title : String) (rename_ok : Bool) : AppState :=
  if new_title = "" then st
  else
    match st.notes[idx]? with
    | none => st
    | some note =>
      if note.title = sanitize_title new_title then st
      else if rename_ok then
        { st with
            notes := rename_sorted st idx note new_title
            open_tabs := st.open_tabs.map
              (fun t => if t = idx then rename_new_idx st idx note new_title else t)
            current_tab := rename_cur st idx note new_title }
      else st

/-- True exactly when control in `rename_note` reaches the
`fs::rename` call (line 156): the new title is nonempty, the index resolves
to a note, and the sanitized title differs from the current one. -/
def rename_attempts_fs (st : AppState) (idx : Nat) (new_title : String) : Bool :=
  if new_title = "" then false
  else
    match st.notes[idx]? with
    | none => false
    | some note => note.title ≠ sanitize_title new_title

/-- Worker for `autosave_notes`: the body of the `for` loop (lines 207-214)
applied to each note, `i` tracking the enumeration index fed to the
per-note write oracle. -/
def autosave_go (interval now : Nat) (write_ok : Nat → Bool) : Nat → List Note → List Note
  | _, [] => []
  | i, note :: rest =>
    let note' :=
      if note.unsaved_changes && interval ≤ now - note.last_saved then
        if write_ok i then { note with unsaved_changes := false, last_saved := now }
        else note
      else note
    note' :: autosave_go interval now write_ok (i + 1) rest

/-- `AppState::autosave_notes` (lines 205-215): one scheduler tick at time
`now`, with a per-note outcome oracle for `fs::write`. -/
def autosave_notes (st : AppState) (now : Nat) (write_ok : Nat → Bool) : AppState :=
  { st with notes := autosave_go st.autosave_interval now write_ok 0 st.notes }

/-- Splitting a char list at whitespace, keeping empty segments (they are
filtered out afterwards, matching `split_whitespace`). -/
def split_on_ws : List Char → List (List Char)
  | [] => [[]]
  | c :: rest =>
    match split_on_ws rest with
    | [] => [[]]
    | h :: t => if c.isWhitespace then [] :: h :: t else (c :: h) :: t

/-- Model of `str::split_whitespace`: maximal nonempty runs of
non-whitespace characters.  `Char.isWhitespace` covers the ASCII whitespace
the development evaluates on; Rust additionally treats other Unicode
White_Space code points as separators. -/
def rust_split_whitespace (s : String) : List String :=
  ((split_on_ws s.data).filter (fun p => p ≠ [])).map (fun p => ⟨p⟩)

/-- `AppState::count_words_and_chars` (lines 217-225): whitespace-separated
token count and Unicode-scalar count for an in-range index, `(0, 0)`
otherwise. -/
def count_words_and_chars (st : AppState) (idx : Nat) : Nat × Nat :=
  match st.notes[idx]? with
  | some note => ((rust_split_whitespace note.content).length, note.content.length)
  | none => (0, 0)

/-- Title shown in dialog prompts for index `i` (the source reads it off
the note the UI row was built from). -/
def title_at (st : AppState) (i : Nat) : String :=
  ((st.notes[i]?).map Note.title).getD ""

/-- Trash-button click (lines 436-444): overwrite the pending slot with a
`DeleteNote` request for note `i`. -/
def request_delete (st : AppState) (i : Nat) : AppState :=
  { st with
      confirmation_dialog :=
        { is_open := true
          title := "Confirm Deletion"
          message := "Are you sure you want to delete \"" ++ title_at st i ++ "\"?"
          action_type := DialogAction.DeleteNote
          target_index := some i } }

/-- Close of a dirty tab (lines 313-321 and 482-490): overwrite the pending
slot with a `CloseUnsavedTab` request for note `i`. -/
def request_close_unsaved (st : AppState) (i : Nat) : AppState :=
  { st with
      confirmation_dialog :=
        { is_open := true
          title := "Unsaved Changes"
          message := "The note \"" ++ title_at st i ++ "\" has unsaved changes. Close without saving?"
          action_type := DialogAction.CloseUnsavedTab
          target_index := some i } }

/-- Cancel click (lines 272-274): the dialog closes, nothing else happens. -/
def cancel_dialog (st : AppState) : AppState :=
  { st with confirmation_dialog := { st.confirmation_dialog with is_open := false } }

/-- Confirm click plus the action dispatch (lines 276-284 and 338-352):
the dialog closes and the stored action runs against the stored target.
`none` models the panic `delete_note` would hit on an out-of-range target;
a closed dialog dispatches nothing. -/
def confirm_dialog (st : AppState) : Option AppState :=
  if st.confirmation_dialog.is_open then
    let st1 := { st with confirmation_dialog := { st.confirmation_dialog with is_open := false } }
    match st.confirmation_dialog.action_type, st.confirmation_dialog.target_index with
    | DialogAction.DeleteNote, some idx => delete_note_checked st1 idx
    | DialogAction.DeleteNote, none => some st1
    | DialogAction.CloseUnsavedTab, some idx =>
        let tabs := st1.open_tabs.filter (fun t => t ≠ idx)
        some { st1 with open_tabs := tabs, current_tab := tabs.getLast? }
    | DialogAction.CloseUnsavedTab, none => some st1
  else some st

/-- Note-list click (lines 429-434): append to open tabs when absent and
select. -/
def open_note (st : AppState) (i : Nat) : AppState :=
  { st with
      open_tabs := if i ∈ st.open_tabs then st.open_tabs else st.open_tabs ++ [i]
      current_tab := some i }

/-- Tab-bar label click (lines 476-478): select an open tab. -/
def select_tab (st : AppState) (i : Nat) : AppState :=
  { st with current_tab := some i }

/-- Tab-bar close of a clean tab (lines 498-503): drop the tab; the
selection moves to the last remaining tab only when the closed tab was
selected. -/
def close_tab_clean (st : AppState) (i : Nat) : AppState :=
  let tabs := st.open_tabs.filter (fun t => t ≠ i)
  { st with
      open_tabs := tabs
      current_tab := if st.current_tab = some i then tabs.getLast? else st.current_tab }

/-- Ctrl+W on a clean current tab (lines 322-325): drop the tab and select
the last remaining tab unconditionally. -/
def ctrl_w_close (st : AppState) : AppState :=
  match st.current_tab with
  | none => st
  | some idx =>
    let tabs := st.open_tabs.filter (fun t => t ≠ idx)
    { st with open_tabs := tabs, current_tab := tabs.getLast? }

/-- Editor change (lines 619-622): overwrite the current note's content and
mark it dirty. -/
def edit_current (st : AppState) (text : String) : AppState :=
  match st.current_tab with
  | none => st
  | some idx =>
    match st.notes[idx]? with
    | none => st
    | some note =>
        { st with notes := st.notes.set idx { note with content := text, unsaved_changes := true } }

/-- `AppState::save_current_note` (lines 191-203) with a write oracle. -/
def save_current_note (st : AppState) (now : Nat) (write_ok : Bool) : AppState :=
  match st.current_tab with
  | none => st
  | some idx =>
    match st.notes[idx]? with
    | none => st
    | some note =>
        if note.unsaved_changes && write_ok then
          { st with notes := st.notes.set idx { note with unsaved_changes := false, last_saved := now } }
        else st

/-- Typed display blocks of the preview, one per physical line (spec view
of the strings emitted at lines 233-252). -/
inductive Block where
  | spacer
  | heading (level : Nat) (text : String)
  | listItem (text : String)
  | quote (text : String)
  | codeFenceStart
  | codeFenceEnd
  | paragraph (text : String)
deriving DecidableEq

/-- Backquote character, written via its code point. -/
def tick : Char := Char.ofNat 96

/-- True when the trimmed line ends with three backquotes. -/
def ends_with_fence (l : List Char) : Bool :=
  match l.reverse with
  | a :: b :: c :: _ => a = tick && b = tick && c = tick
  | _ => false

/-- Model of `str::trim` on the char list.  `Char.isWhitespace` covers the
ASCII whitespace this development evaluates on; Rust also trims the rarer
Unicode White_Space code points. -/
def trim_chars (l : List Char) : List Char :=
  ((l.dropWhile Char.isWhitespace).reverse.dropWhile Char.isWhitespace).reverse

/-- Collapse each `\r\n` to `\n`, mirroring the line terminators
`str::lines` recognizes. -/
def normalize_crlf : List Char → List Char
  | '\r' :: '\n' :: rest => '\n' :: normalize_crlf rest
  | c :: rest => c :: normalize_crlf rest
  | [] => []

/-- Split a char list at each newline; the result always has one more
segment than there are newlines. -/
def split_newlines : List Char → List (List Char)
  | [] => [[]]
  | c :: rest =>
    match split_newlines rest with
    | [] => [[]]
    | h :: t => if c = '\n' then [] :: h :: t else (c :: h) :: t

/-- Model of `str::lines`: split at `\n` (also consuming a preceding `\r`)
and drop the segment after a trailing newline.  In particular the empty
string has no lines. -/
def rust_lines (s : String) : List String :=
  let parts := split_newlines (normalize_crlf s.data)
  let parts := match parts.getLast? with
    | some [] => parts.dropLast
    | _ => parts
  parts.map (fun l => ⟨l⟩)

/-- Per-line classification: the exact branch chain of lines 233-251,
producing the typed block whose tag names the emitted markup. -/
def classify_line (line : String) : Block :=
  let t := trim_chars line.data
  if t = [] then Block.spacer
  else if ['#', ' '].isPrefixOf t then Block.heading 1 ⟨t.drop 2⟩
  else if ['#', '#', ' '].isPrefixOf t then Block.heading 2 ⟨t.drop 3⟩
  else if ['#', '#', '#', ' '].isPrefixOf t then Block.heading 3 ⟨t.drop 4⟩
  else if ['-', ' '].isPrefixOf t || ['*', ' '].isPrefixOf t then Block.listItem ⟨t.drop 2⟩
  else if ['>', ' '].isPrefixOf t then Block.quote ⟨t.drop 2⟩
  else if [tick, tick, tick].isPrefixOf t then Block.codeFenceStart
  else if ends_with_fence t then Block.codeFenceEnd
  else Block.paragraph ⟨t⟩

/-- The markup string each branch of lines 233-251 appends for its block. -/
def block_html : Block → String
  | Block.spacer => "<p></p>\n"
  | Block.heading l t => "<h" ++ toString l ++ ">" ++ t ++ "</h" ++ toString l ++ ">\n"
  | Block.listItem t => "<li>" ++ t ++ "</li>\n"
  | Block.quote t => "<blockquote>" ++ t ++ "</blockquote>\n"
  | Block.codeFenceStart => "<pre><code>\n"
  | Block.codeFenceEnd => "</code></pre>\n"
  | Block.paragraph t => "<p>" ++ t ++ "</p>\n"

/-- Block sequence of the preview renderer: one block per source line. -/
def render_blocks (s : String) : List Block :=
  (rust_lines s).map classify_line

/-- `AppState::render_markdown_to_html` (lines 227-256): the concatenation
of each line's markup, factored through the block classification. -/
def render_markdown_to_html (s : String) : String :=
  String.join ((rust_lines s).map (fun l => block_html (classify_line l)))

/-- Every open tab is an in-range index into the collection. -/
def tabs_ok (st : AppState) : Bool :=
  st.open_tabs.all (fun t => t < st.notes.length)

/-- The current selection, when present, is an in-range index. -/
def cur_ok (st : AppState) : Bool :=
  st.current_tab.all (fun c => c < st.notes.length)

/-- An open dialog always targets an in-range index. -/
def dialog_ok (st : AppState) : Bool :=
  !st.confirmation_dialog.is_open ||
    st.confirmation_dialog.target_index.all (fun t => t < st.notes.length)

/-- The collection is sorted by case-insensitive title. -/
def SortedNotes (st : AppState) : Prop :=
  List.Sorted NoteLe st.notes

/-- Reachability invariant: sorted collection and in-range tab, selection
and dialog-target indices. -/
def StateInv (st : AppState) : Prop :=
  SortedNotes st ∧ tabs_ok st = true ∧ cur_ok st = true ∧ dialog_ok st = true

/-- No two in-memory notes share an on-disk path. -/
def paths_unique (st : AppState) : Prop :=
  st.notes.Pairwise (fun a b => a.path ≠ b.path)

instance (st : AppState) : Decidable (SortedNotes st) :=
  inferInstanceAs (Decidable (List.Pairwise NoteLe st.notes))

instance (st : AppState) : Decidable (StateInv st) :=
  inferInstanceAs (Decidable (SortedNotes st ∧ tabs_ok st = true ∧ cur_ok st = true ∧ dialog_ok st = true))

instance (st : AppState) : Decidable (paths_unique st) :=
  inferInstanceAs (Decidable (List.Pairwise (fun a b : Note => a.path ≠ b.path) st.notes))

/-- One iteration of the event loop: every state mutation the shell can
trigger, with the guards the UI enforces (indices it passes come from
enumerating the live collection or the open tabs). -/
inductive Step : AppState → AppState → Prop where
  | create (st : AppState) (now : Nat) (ok : Bool) : Step st (create_note st now ok)
  | rename (st : AppState) (idx : Nat) (t : String) (ok : Bool) :
      Step st (rename_note st idx t ok)
  | request_del (st : AppState) (i : Nat) (h : i < st.notes.length) :
      Step st (request_delete st i)
  | request_close (st : AppState) (i : Nat) (h : i < st.notes.length) :
      Step st (request_close_unsaved st i)
  | confirm (st st' : AppState) (h : confirm_dialog st = some st') : Step st st'
  | cancel (st : AppState) : Step st (cancel_dialog st)
  | open_note (st : AppState) (i : Nat) (h : i < st.notes.length) :
      Step st (open_note st i)
  | select (st : AppState) (i : Nat) (h : i ∈ st.open_tabs) : Step st (select_tab st i)
  | close_clean (st : AppState) (i : Nat) : Step st (close_tab_clean st i)
  | ctrl_w (st : AppState) : Step st (ctrl_w_close st)
  | edit (st : AppState) (text : String) : Step st (edit_current st text)
  | save_current (st : AppState) (now : Nat) (ok : Bool) :
      Step st (save_current_note st now ok)
  | autosave (st : AppState) (now : Nat) (ok : Nat → Bool) :
      Step st (autosave_notes st now ok)

/-- Reachability: any finite sequence of loop iterations. -/
def Reach : AppState → AppState → Prop :=
  Relation.ReflTransGen Step

/-- The dialog slot at startup (lines 77-83). -/
def dialog_idle : ConfirmationDialog :=
  { is_open := false
    title := ""
    message := ""
    action_type := DialogAction.DeleteNote
    target_index := none }

/-- A freshly loaded empty state. -/
def st_empty : AppState :=
  { notes := []
    open_tabs := []
    current_tab := none
    notes_dir := "n"
    confirmation_dialog := dialog_idle
    autosave_interval := 30 }

/-- Note constructor for concrete test states. -/
def mk_note (title path : String) : Note :=
  { title := title, content := "", path := path, unsaved_changes := false, last_saved := 0 }

/-- Two-note state used to exhibit the rename index-remapping failure:
sorted collection `a`, `b`; the tab and the selection point at `a`. -/
def st_c1 : AppState :=
  { notes := [mk_note "a" "n/a.md", mk_note "b" "n/b.md"]
    open_tabs := [0]
    current_tab := some 0
    notes_dir := "n"
    confirmation_dialog := dialog_idle
    autosave_interval := 30 }

/-- State reached from `st_empty` by create, create, delete 0: a single
note titled `Note_2`, so the next generated title collides. -/
def st_c5 : AppState :=
  delete_note (create_note (create_note st_empty 0 true) 0 true) 0

/-- Small concrete state for witnesses: sorted two-note collection with
both notes open and the second selected. -/
def st_w : AppState :=
  { notes := [mk_note "x" "n/x.md", mk_note "y" "n/y.md"]
    open_tabs := [0, 1]
    current_tab := some 1
    notes_dir := "n"
    confirmation_dialog := dialog_idle
    autosave_interval := 30 }

/-- Unfolding of the lexicographic comparison on a cons pair. -/
theorem charListLe_cons (a b : Char) (as bs : List Char) :
    charListLe (a :: as) (b :: bs) = true ↔
      a.toNat < b.toNat ∨ (a.toNat = b.toNat ∧ charListLe as bs = true) := by
  rcases Nat.lt_trichotomy a.toNat b.toNat with h | h | h
  · simp [charListLe, h]
  · simp [charListLe, h]
  · have h1 : ¬ a.toNat < b.toNat := by omega
    have h2 : a.toNat ≠ b.toNat := by omega
    simp [charListLe, h, h1, h2]

/-- The comparison is total. -/
theorem charListLe_total : ∀ as bs, charListLe as bs = true ∨ charListLe bs as = true := by
  intro as
  induction as with
  | nil => intro bs; left; simp [charListLe]
  | cons a as ih =>
    intro bs
    cases bs with
    | nil => right; simp [charListLe]
    | cons b bs =>
      rcases Nat.lt_trichotomy a.toNat b.toNat with h | h | h
      · left; rw [charListLe_cons]; exact Or.inl h
      · rcases ih bs with h2 | h2
        · left; rw [charListLe_cons]; exact Or.inr ⟨h, h2⟩
        · right; rw [charListLe_cons]; exact Or.inr ⟨h.symm, h2⟩
      · right; rw [charListLe_cons]; exact Or.inl h

/-- The comparison is transitive. -/
theorem charListLe_trans :
    ∀ as bs cs, charListLe as bs = true → charListLe bs cs = true → charListLe as cs = true := by
  intro as
  induction as with
  | nil => intros; simp [charListLe]
  | cons a as ih =>
    intro bs cs h1 h2
    cases bs with
    | nil => simp [charListLe] at h1
    | cons b bs =>
      cases cs with
      | nil => simp [charListLe] at h2
      | cons c cs =>
        rw [charListLe_cons] at h1 h2 ⊢
        rcases h1 with h1 | ⟨h1e, h1r⟩
        · rcases h2 with h2 | ⟨h2e, h2r⟩
          · exact Or.inl (by omega)
          · exact Or.inl (by omega)
        · rcases h2 with h2 | ⟨h2e, h2r⟩
          · exact Or.inl (by omega)
          · exact Or.inr ⟨by omega, ih bs cs h1r h2r⟩

/-- `sort_notes` sorts. -/
theorem sorted_sort_notes (l : List Note) : List.Sorted NoteLe (sort_notes l) := by
  haveI : IsTotal Note NoteLe := ⟨fun _ _ => charListLe_total _ _⟩
  haveI : IsTrans Note NoteLe := ⟨fun _ _ _ hab hbc => charListLe_trans _ _ _ hab hbc⟩
  exact List.sorted_insertionSort NoteLe l

/-- `sort_notes` permutes its input. -/
theorem perm_sort_notes (l : List Note) : (sort_notes l).Perm l :=
  List.perm_insertionSort NoteLe l

/-- `sort_notes` preserves length. -/
theorem length_sort_notes (l : List Note) : (sort_notes l).length = l.length :=
  (perm_sort_notes l).length_eq

/-- `position(..).unwrap_or(d)` stays in range when the default does. -/
theorem findIdx?_getD_lt {α : Type} (l : List α) (p : α → Bool) (d : Nat)
    (hd : d < l.length) : (l.findIdx? p).getD d < l.length := by
  cases h : l.findIdx? p with
  | none => simpa using hd
  | some i =>
    obtain ⟨hi, -⟩ := List.findIdx?_eq_some_iff_getElem.mp h
    simpa using hi

/-- The sort key only reads the title. -/
theorem noteLe_congr {a a' b b' : Note} (ha : a.title = a'.title) (hb : b.title = b'.title) :
    NoteLe a b ↔ NoteLe a' b' := by
  unfold NoteLe
  rw [ha, hb]

/-- Titlewise-equal lists compare equally against a fixed note. -/
theorem noteLe_all_of_forall₂ {l₁ l₂ : List Note}
    (h : List.Forall₂ (fun a b => a.title = b.title) l₁ l₂) (x : Note)
    (hx : ∀ b ∈ l₁, NoteLe x b) : ∀ b' ∈ l₂, NoteLe x b' := by
  induction h with
  | nil => simp
  | @cons a b l₁' l₂' hab _ ih =>
    intro b' hb'
    rcases List.mem_cons.mp hb' with rfl | hmem
    · exact (noteLe_congr rfl hab).mp (hx a (List.mem_cons_self a l₁'))
    · exact ih (fun c hc => hx c (List.mem_cons_of_mem a hc)) b' hmem

/-- Sortedness transfers along titlewise equality of lists. -/
theorem pairwise_noteLe_of_forall₂ {l₁ l₂ : List Note}
    (h : List.Forall₂ (fun a b => a.title = b.title) l₁ l₂)
    (hp : List.Pairwise NoteLe l₁) : List.Pairwise NoteLe l₂ := by
  induction h with
  | nil => exact List.Pairwise.nil
  | @cons a b l₁' l₂' hab htail ih =>
    rcases List.pairwise_cons.mp hp with ⟨hhead, htl⟩
    refine List.pairwise_cons.mpr ⟨?_, ih htl⟩
    intro b' hb'
    exact (noteLe_congr hab rfl).mp (noteLe_all_of_forall₂ htail a hhead b' hb')

/-- Titlewise equality is reflexive. -/
theorem forall₂_title_refl : ∀ l : List Note, List.Forall₂ (fun a b => a.title = b.title) l l := by
  intro l
  induction l with
  | nil => exact List.Forall₂.nil
  | cons a l ih => exact List.Forall₂.cons rfl ih

/-- Replacing a note by one with the same title is titlewise equality. -/
theorem forall₂_title_set {l : List Note} {i : Nat} {n n' : Note}
    (h : l[i]? = some n) (ht : n'.title = n.title) :
    List.Forall₂ (fun a b => a.title = b.title) l (l.set i n') := by
  induction l generalizing i with
  | nil => simp at h
  | cons a l ih =>
    cases i with
    | zero =>
      simp only [List.getElem?_cons_zero, Option.some.injEq] at h
      subst h
      exact List.Forall₂.cons (ht.symm) (forall₂_title_refl l)
    | succ i =>
      simp only [List.getElem?_cons_succ] at h
      rw [List.set_cons_succ]
      exact List.Forall₂.cons rfl (ih h)

/-- The autosave sweep only touches `unsaved_changes` and `last_saved`. -/
theorem forall₂_title_autosave_go (interval now : Nat) (ok : Nat → Bool) :
    ∀ (i : Nat) (l : List Note),
      List.Forall₂ (fun a b => a.title = b.title) l (autosave_go interval now ok i l) := by
  intro i l
  induction l generalizing i with
  | nil => exact List.Forall₂.nil
  | cons a l ih =>
    refine List.Forall₂.cons ?_ (ih (i + 1))
    dsimp only [autosave_go]
    split
    · split <;> rfl
    · rfl

/-- The autosave sweep preserves length. -/
theorem length_autosave_go (interval now : Nat) (ok : Nat → Bool) :
    ∀ (i : Nat) (l : List Note), (autosave_go interval now ok i l).length = l.length := by
  intro i l
  induction l generalizing i with
  | nil => rfl
  | cons a l ih => simp [autosave_go, ih]

/-- Elementwise description of the autosave sweep. -/
theorem getElem?_autosave_go (interval now : Nat) (ok : Nat → Bool) :
    ∀ (l : List Note) (i j : Nat),
      (autosave_go interval now ok i l)[j]? = (l[j]?).map (fun note =>
        if note.unsaved_changes && interval ≤ now - note.last_saved then
          if ok (i + j) then { note with unsaved_changes := false, last_saved := now }
          else note
        else note) := by
  intro l
  induction l with
  | nil => intro i j; simp [autosave_go]
  | cons a l ih =>
    intro i j
    cases j with
    | zero => simp [autosave_go]
    | succ j =>
      simp only [autosave_go, List.getElem?_cons_succ]
      rw [ih (i + 1) j]
      have : i + 1 + j = i + (j + 1) := by omega
      rw [this]

/-- Propositional reading of `tabs_ok`. -/
theorem tabs_ok_iff (st : AppState) :
    tabs_ok st = true ↔ ∀ t ∈ st.open_tabs, t < st.notes.length := by
  simp [tabs_ok, List.all_eq_true]

/-- Propositional reading of `cur_ok`. -/
theorem cur_ok_iff (st : AppState) :
    cur_ok st = true ↔ ∀ c, st.current_tab = some c → c < st.notes.length := by
  cases h : st.current_tab <;> simp [cur_ok, h, Option.all]

/-- Propositional reading of `dialog_ok`. -/
theorem dialog_ok_iff (st : AppState) :
    dialog_ok st = true ↔
      (st.confirmation_dialog.is_open = true →
        ∀ t, st.confirmation_dialog.target_index = some t → t < st.notes.length) := by
  cases ho : st.confirmation_dialog.is_open <;>
    cases ht : st.confirmation_dialog.target_index <;>
      simp [dialog_ok, ho, ht, Option.all]

/-- The collection grows by one on a successful create. -/
theorem length_create_sorted (st : AppState) (now : Nat) :
    (create_sorted st now).length = st.notes.length + 1 := by
  unfold create_sorted
  rw [length_sort_notes, List.length_append, List.length_singleton]

/-- The looked-up index of the new note is in range. -/
theorem create_new_idx_lt (st : AppState) (now : Nat) :
    create_new_idx st now < (create_sorted st now).length := by
  unfold create_new_idx
  exact findIdx?_getD_lt _ _ 0 (by rw [length_create_sorted]; omega)

/-- Unfolding of the successful create branch. -/
theorem create_note_true (st : AppState) (now : Nat) :
    create_note st now true =
      { st with
          notes := create_sorted st now
          open_tabs := st.open_tabs ++ [create_new_idx st now]
          current_tab := some (create_new_idx st now) } := rfl

/-- A failed write leaves the state unchanged. -/
theorem create_note_false (st : AppState) (now : Nat) : create_note st now false = st := rfl

/-- Creation preserves the reachability invariant. -/
theorem inv_create (st : AppState) (now : Nat) (ok : Bool) (h : StateInv st) :
    StateInv (create_note st now ok) := by
  obtain ⟨hs, ht, hc, hd⟩ := h
  cases ok with
  | false => exact ⟨hs, ht, hc, hd⟩
  | true =>
    rw [create_note_true]
    refine ⟨?_, ?_, ?_, ?_⟩
    · exact sorted_sort_notes _
    · rw [tabs_ok_iff]
      intro t htmem
      dsimp only at htmem ⊢
      rw [length_create_sorted]
      rcases List.mem_append.mp htmem with hold | hnew
      · have := (tabs_ok_iff st).mp ht t hold
        omega
      · have hk := List.mem_singleton.mp hnew
        subst hk
        have h2 := create_new_idx_lt st now
        rw [length_create_sorted] at h2
        exact h2
    · rw [cur_ok_iff]
      intro c hcur
      dsimp only at hcur ⊢
      rw [length_create_sorted]
      have hc2 := Option.some.inj hcur
      subst hc2
      have h2 := create_new_idx_lt st now
      rw [length_create_sorted] at h2
      exact h2
    · rw [dialog_ok_iff]
      intro hopen t htarget
      dsimp only at hopen htarget ⊢
      rw [length_create_sorted]
      have := (dialog_ok_iff st).mp hd hopen t htarget
      omega

/-- After a delete, every remapped tab index is in range for the shrunken
collection. -/
theorem delete_tabs_lt (st : AppState) (i : Nat) (ht : tabs_ok st = true)
    (hi : i < st.notes.length) : ∀ t ∈ delete_tabs st i, t < st.notes.length - 1 := by
  intro t htmem
  unfold delete_tabs at htmem
  obtain ⟨u, hu, rfl⟩ := List.mem_map.mp htmem
  obtain ⟨humem, hune⟩ := List.mem_filter.mp hu
  have hult : u < st.notes.length := (tabs_ok_iff st).mp ht u humem
  have hune' : u ≠ i := by simpa using hune
  split <;> omega

/-- After a delete, the remapped selection is in range for the shrunken
collection. -/
theorem delete_cur_lt (st : AppState) (i : Nat) (ht : tabs_ok st = true)
    (hc : cur_ok st = true) (hi : i < st.notes.length) :
    ∀ c, delete_cur st i = some c → c < st.notes.length - 1 := by
  intro c hcur
  unfold delete_cur at hcur
  cases hcc : st.current_tab with
  | none => rw [hcc] at hcur; simp at hcur
  | some cu =>
    rw [hcc] at hcur
    dsimp only at hcur
    have hcu : cu < st.notes.length := (cur_ok_iff st).mp hc cu hcc
    by_cases hcui : cu = i
    · rw [if_pos hcui] at hcur
      exact delete_tabs_lt st i ht hi c (List.mem_of_getLast?_eq_some hcur)
    · rw [if_neg hcui] at hcur
      by_cases hlt : i < cu
      · rw [if_pos hlt] at hcur
        have := Option.some.inj hcur
        omega
      · rw [if_neg hlt] at hcur
        have := Option.some.inj hcur
        omega

/-- Deletion of an in-range note, with the dialog closed, preserves the
reachability invariant. -/
theorem inv_delete (st : AppState) (i : Nat) (h : StateInv st) (hi : i < st.notes.length)
    (hcl : st.confirmation_dialog.is_open = false) : StateInv (delete_note st i) := by
  obtain ⟨hs, ht, hc, hd⟩ := h
  have hlen : (st.notes.eraseIdx i).length = st.notes.length - 1 := by
    rw [List.length_eraseIdx]
    simp [hi]
  refine ⟨?_, ?_, ?_, ?_⟩
  · exact List.Pairwise.sublist (List.eraseIdx_sublist _ _) hs
  · rw [tabs_ok_iff]
    intro t htmem
    show t < (st.notes.eraseIdx i).length
    rw [hlen]
    exact delete_tabs_lt st i ht hi t htmem
  · rw [cur_ok_iff]
    intro c hcur
    show c < (st.notes.eraseIdx i).length
    rw [hlen]
    have hcur' : (if (st.notes.eraseIdx i).isEmpty then none else delete_cur st i) = some c := hcur
    cases hemp : (st.notes.eraseIdx i).isEmpty with
    | true => rw [hemp] at hcur'; simp at hcur'
    | false =>
      rw [hemp] at hcur'
      simp only [Bool.false_eq_true, if_false] at hcur'
      exact delete_cur_lt st i ht hc hi c hcur'
  · rw [dialog_ok_iff]
    intro hopen
    have heq : (delete_note st i).confirmation_dialog.is_open = st.confirmation_dialog.is_open := rfl
    rw [heq, hcl] at hopen
    exact (Bool.false_ne_true hopen).elim

/-- A rename leaves the collection size unchanged. -/
theorem length_rename_sorted (st : AppState) (idx : Nat) (note : Note) (t : String) :
    (rename_sorted st idx note t).length = st.notes.length := by
  unfold rename_sorted
  rw [length_sort_notes, List.length_set]

/-- The looked-up index of the renamed note is in range. -/
theorem rename_new_idx_lt (st : AppState) (idx : Nat) (note : Note) (t : String)
    (hidx : idx < st.notes.length) : rename_new_idx st idx note t < st.notes.length := by
  unfold rename_new_idx
  have h := findIdx?_getD_lt (rename_sorted st idx note t) (fun n => n.path = note.path) idx
    (by rw [length_rename_sorted]; exact hidx)
  rwa [length_rename_sorted] at h

/-- Renaming preserves the reachability invariant. -/
theorem inv_rename (st : AppState) (idx : Nat) (t : String) (ok : Bool) (h : StateInv st) :
    StateInv (rename_note st idx t ok) := by
  obtain ⟨hs, ht, hc, hd⟩ := h
  unfold rename_note
  split
  · exact ⟨hs, ht, hc, hd⟩
  · split
    · exact ⟨hs, ht, hc, hd⟩
    · rename_i note hnote
      split
      · exact ⟨hs, ht, hc, hd⟩
      · split
        · have hidx : idx < st.notes.length := (List.getElem?_eq_some.mp hnote).1
          refine ⟨?_, ?_, ?_, ?_⟩
          · exact sorted_sort_notes _
          · rw [tabs_ok_iff]
            intro u humem
            show u < (rename_sorted st idx note t).length
            rw [length_rename_sorted]
            have humem' : u ∈ st.open_tabs.map
                (fun u => if u = idx then rename_new_idx st idx note t else u) := humem
            obtain ⟨v, hv, rfl⟩ := List.mem_map.mp humem'
            by_cases hvi : v = idx
            · rw [if_pos hvi]
              exact rename_new_idx_lt st idx note t hidx
            · rw [if_neg hvi]
              exact (tabs_ok_iff st).mp ht v hv
          · rw [cur_ok_iff]
            intro c hcur
            show c < (rename_sorted st idx note t).length
            rw [length_rename_sorted]
            have hcur' : rename_cur st idx note t = some c := hcur
            unfold rename_cur at hcur'
            cases hcc : st.current_tab with
            | none => rw [hcc] at hcur'; simp at hcur'
            | some cu =>
              rw [hcc] at hcur'
              dsimp only at hcur'
              by_cases hcui : cu = idx
              · rw [if_pos hcui] at hcur'
                have := Option.some.inj hcur'
                subst this
                exact rename_new_idx_lt st idx note t hidx
              · rw [if_neg hcui] at hcur'
                have := Option.some.inj hcur'
                subst this
                exact (cur_ok_iff st).mp hc cu hcc
          · rw [dialog_ok_iff]
            intro hopen u htarget
            show u < (rename_sorted st idx note t).length
            rw [length_rename_sorted]
            exact (dialog_ok_iff st).mp hd hopen u htarget
        · exact ⟨hs, ht, hc, hd⟩

/-- Requesting a delete preserves the reachability invariant. -/
theorem inv_request_delete (st : AppState) (i : Nat) (h : StateInv st)
    (hi : i < st.notes.length) : StateInv (request_delete st i) := by
  obtain ⟨hs, ht, hc, hd⟩ := h
  refine ⟨hs, ht, hc, ?_⟩
  rw [dialog_ok_iff]
  intro _ u htarget
  have h1 : some i = some u := htarget
  have h2 := Option.some.inj h1
  show u < st.notes.length
  omega

/-- Requesting a close-unsaved preserves the reachability invariant. -/
theorem inv_request_close (st : AppState) (i : Nat) (h : StateInv st)
    (hi : i < st.notes.length) : StateInv (request_close_unsaved st i) := by
  obtain ⟨hs, ht, hc, hd⟩ := h
  refine ⟨hs, ht, hc, ?_⟩
  rw [dialog_ok_iff]
  intro _ u htarget
  have h1 : some i = some u := htarget
  have h2 := Option.some.inj h1
  show u < st.notes.length
  omega

/-- Cancelling the dialog preserves the reachability invariant. -/
theorem inv_cancel (st : AppState) (h : StateInv st) : StateInv (cancel_dialog st) := by
  obtain ⟨hs, ht, hc, _⟩ := h
  exact ⟨hs, ht, hc, rfl⟩

/-- Closing the dialog slot preserves the reachability invariant. -/
theorem inv_close_slot (st : AppState) (h : StateInv st) :
    StateInv { st with confirmation_dialog := { st.confirmation_dialog with is_open := false } } := by
  obtain ⟨hs, ht, hc, _⟩ := h
  exact ⟨hs, ht, hc, rfl⟩

/-- Filtering the open tabs and selecting their last element preserves the
reachability invariant, for any state whose dialog part already satisfies
`dialog_ok`. -/
theorem inv_filter_tabs (st : AppState) (i : Nat) (h : StateInv st) :
    StateInv { st with
        open_tabs := st.open_tabs.filter (fun t => t ≠ i)
        current_tab := (st.open_tabs.filter (fun t => t ≠ i)).getLast? } := by
  obtain ⟨hs, ht, hc, hd⟩ := h
  refine ⟨hs, ?_, ?_, hd⟩
  · rw [tabs_ok_iff]
    intro t htmem
    have htmem' : t ∈ st.open_tabs.filter (fun t => t ≠ i) := htmem
    exact (tabs_ok_iff st).mp ht t (List.mem_filter.mp htmem').1
  · rw [cur_ok_iff]
    intro c hcur
    have hcur' : (st.open_tabs.filter (fun t => t ≠ i)).getLast? = some c := hcur
    have hmem := List.mem_of_getLast?_eq_some hcur'
    exact (tabs_ok_iff st).mp ht c (List.mem_filter.mp hmem).1

/-- Confirming the dialog preserves the reachability invariant. -/
theorem inv_confirm (st st' : AppState) (h : StateInv st)
    (hc : confirm_dialog st = some st') : StateInv st' := by
  unfold confirm_dialog at hc
  split at hc
  · rename_i hopen
    dsimp only at hc
    split at hc
    · rename_i hact htarget
      unfold delete_note_checked at hc
      split at hc
      · rename_i hlt
        have h1 := inv_close_slot st h
        have h2 := inv_delete _ _ h1 hlt rfl
        rw [Option.some.injEq] at hc
        rw [← hc]
        exact h2
      · exact (Option.noConfusion hc)
    · rw [Option.some.injEq] at hc
      rw [← hc]
      exact inv_close_slot st h
    · rename_i hact htarget
      rw [Option.some.injEq] at hc
      rw [← hc]
      exact inv_filter_tabs _ _ (inv_close_slot st h)
    · rw [Option.some.injEq] at hc
      rw [← hc]
      exact inv_close_slot st h
  · rw [Option.some.injEq] at hc
    rw [← hc]
    exact h

/-- Opening a note preserves the reachability invariant. -/
theorem inv_open_note (st : AppState) (i : Nat) (h : StateInv st)
    (hi : i < st.notes.length) : StateInv (open_note st i) := by
  obtain ⟨hs, ht, hc, hd⟩ := h
  refine ⟨hs, ?_, ?_, hd⟩
  · rw [tabs_ok_iff]
    intro t htmem
    have htmem' : t ∈ (if i ∈ st.open_tabs then st.open_tabs else st.open_tabs ++ [i]) := htmem
    split at htmem'
    · exact (tabs_ok_iff st).mp ht t htmem'
    · rcases List.mem_append.mp htmem' with hold | hnew
      · exact (tabs_ok_iff st).mp ht t hold
      · have h2 := List.mem_singleton.mp hnew
        show t < st.notes.length
        omega
  · rw [cur_ok_iff]
    intro c hcur
    have h1 : some i = some c := hcur
    have h2 := Option.some.inj h1
    show c < st.notes.length
    omega

/-- Selecting an open tab preserves the reachability invariant. -/
theorem inv_select (st : AppState) (i : Nat) (h : StateInv st)
    (hi : i ∈ st.open_tabs) : StateInv (select_tab st i) := by
  obtain ⟨hs, ht, hc, hd⟩ := h
  refine ⟨hs, ht, ?_, hd⟩
  rw [cur_ok_iff]
  intro c hcur
  have : some i = some c := hcur
  have := Option.some.inj this
  subst this
  exact (tabs_ok_iff st).mp ht i hi

/-- Closing a clean tab from the tab bar preserves the reachability
invariant. -/
theorem inv_close_clean (st : AppState) (i : Nat) (h : StateInv st) :
    StateInv (close_tab_clean st i) := by
  obtain ⟨hs, ht, hc, hd⟩ := h
  refine ⟨hs, ?_, ?_, hd⟩
  · rw [tabs_ok_iff]
    intro t htmem
    have htmem' : t ∈ st.open_tabs.filter (fun t => t ≠ i) := htmem
    exact (tabs_ok_iff st).mp ht t (List.mem_filter.mp htmem').1
  · rw [cur_ok_iff]
    intro c hcur
    have hcur' : (if st.current_tab = some i then (st.open_tabs.filter (fun t => t ≠ i)).getLast?
        else st.current_tab) = some c := hcur
    split at hcur'
    · have hmem := List.mem_of_getLast?_eq_some hcur'
      exact (tabs_ok_iff st).mp ht c (List.mem_filter.mp hmem).1
    · exact (cur_ok_iff st).mp hc c hcur'

/-- Ctrl+W close preserves the reachability invariant. -/
theorem inv_ctrl_w (st : AppState) (h : StateInv st) : StateInv (ctrl_w_close st) := by
  obtain ⟨hs, ht, hc, hd⟩ := h
  unfold ctrl_w_close
  split
  · exact ⟨hs, ht, hc, hd⟩
  · rename_i idx hcc
    refine ⟨hs, ?_, ?_, hd⟩
    · rw [tabs_ok_iff]
      intro t htmem
      have htmem' : t ∈ st.open_tabs.filter (fun u => u ≠ idx) := htmem
      exact (tabs_ok_iff st).mp ht t (List.mem_filter.mp htmem').1
    · rw [cur_ok_iff]
      intro c hcur
      have hcur' : (st.open_tabs.filter (fun u => u ≠ idx)).getLast? = some c := hcur
      have hmem := List.mem_of_getLast?_eq_some hcur'
      exact (tabs_ok_iff st).mp ht c (List.mem_filter.mp hmem).1

/-- Editing the current note preserves the reachability invariant. -/
theorem inv_edit (st : AppState) (text : String) (h : StateInv st) :
    StateInv (edit_current st text) := by
  obtain ⟨hs, ht, hc, hd⟩ := h
  unfold edit_current
  split
  · exact ⟨hs, ht, hc, hd⟩
  · rename_i idx hcc
    split
    · exact ⟨hs, ht, hc, hd⟩
    · rename_i note hnote
      have hlen : (st.notes.set idx { note with content := text, unsaved_changes := true }).length
          = st.notes.length := List.length_set st.notes idx _
      refine ⟨?_, ?_, ?_, ?_⟩
      · exact pairwise_noteLe_of_forall₂ (forall₂_title_set hnote rfl) hs
      · rw [tabs_ok_iff]
        intro t htmem
        show t < (st.notes.set idx _).length
        rw [hlen]
        exact (tabs_ok_iff st).mp ht t htmem
      · rw [cur_ok_iff]
        intro c hcur
        show c < (st.notes.set idx _).length
        rw [hlen]
        exact (cur_ok_iff st).mp hc c hcur
      · rw [dialog_ok_iff]
        intro hopen u htarget
        show u < (st.notes.set idx _).length
        rw [hlen]
        exact (dialog_ok_iff st).mp hd hopen u htarget

/-- Saving the current note preserves the reachability invariant. -/
theorem inv_save_current (st : AppState) (now : Nat) (ok : Bool) (h : StateInv st) :
    StateInv (save_current_note st now ok) := by
  obtain ⟨hs, ht, hc, hd⟩ := h
  unfold save_current_note
  split
  · exact ⟨hs, ht, hc, hd⟩
  · rename_i idx hcc
    split
    · exact ⟨hs, ht, hc, hd⟩
    · rename_i note hnote
      split
      · have hlen :
            (st.notes.set idx { note with unsaved_changes := false, last_saved := now }).length
            = st.notes.length := List.length_set st.notes idx _
        refine ⟨?_, ?_, ?_, ?_⟩
        · exact pairwise_noteLe_of_forall₂ (forall₂_title_set hnote rfl) hs
        · rw [tabs_ok_iff]
          intro t htmem
          show t < (st.notes.set idx _).length
          rw [hlen]
          exact (tabs_ok_iff st).mp ht t htmem
        · rw [cur_ok_iff]
          intro c hcur
          show c < (st.notes.set idx _).length
          rw [hlen]
          exact (cur_ok_iff st).mp hc c hcur
        · rw [dialog_ok_iff]
          intro hopen u htarget
          show u < (st.notes.set idx _).length
          rw [hlen]
          exact (dialog_ok_iff st).mp hd hopen u htarget
      · exact ⟨hs, ht, hc, hd⟩

/-- The autosave sweep preserves the reachability invariant. -/
theorem inv_autosave (st : AppState) (now : Nat) (ok : Nat → Bool) (h : StateInv st) :
    StateInv (autosave_notes st now ok) := by
  obtain ⟨hs, ht, hc, hd⟩ := h
  have hlen : (autosave_go st.autosave_interval now ok 0 st.notes).length = st.notes.length :=
    length_autosave_go _ _ _ _ _
  refine ⟨?_, ?_, ?_, ?_⟩
  · exact pairwise_noteLe_of_forall₂ (forall₂_title_autosave_go _ _ _ 0 st.notes) hs
  · rw [tabs_ok_iff]
    intro t htmem
    show t < (autosave_go st.autosave_interval now ok 0 st.notes).length
    rw [hlen]
    exact (tabs_ok_iff st).mp ht t htmem
  · rw [cur_ok_iff]
    intro c hcur
    show c < (autosave_go st.autosave_interval now ok 0 st.notes).length
    rw [hlen]
    exact (cur_ok_iff st).mp hc c hcur
  · rw [dialog_ok_iff]
    intro hopen u htarget
    show u < (autosave_go st.autosave_interval now ok 0 st.notes).length
    rw [hlen]
    exact (dialog_ok_iff st).mp hd hopen u htarget

/-- Every loop iteration preserves the reachability invariant. -/
theorem inv_step (st st' : AppState) (h : StateInv st) (hs : Step st st') : StateInv st' := by
  cases hs with
  | create now ok => exact inv_create st now ok h
  | rename idx t ok => exact inv_rename st idx t ok h
  | request_del i hi => exact inv_request_delete st i h hi
  | request_close i hi => exact inv_request_close st i h hi
  | confirm =>
    rename_i hc
    exact inv_confirm st st' h hc
  | cancel => exact inv_cancel st h
  | open_note i hi => exact inv_open_note st i h hi
  | select i hi => exact inv_select st i h hi
  | close_clean i => exact inv_close_clean st i h
  | ctrl_w => exact inv_ctrl_w st h
  | edit text => exact inv_edit st text h
  | save_current now ok => exact inv_save_current st now ok h
  | autosave now ok => exact inv_autosave st now ok h

/-- The reachability invariant holds at every reachable state. -/
theorem inv_reach (st st' : AppState) (h : StateInv st) (hr : Reach st st') : StateInv st' := by
  induction hr with
  | refl => exact h
  | tail _ hstep ih => exact inv_step _ _ ih hstep

/-- C10: the word/character count exposed to the shell is total: for every
in-range note index it returns the pair (number of whitespace-separated
tokens of the note's content, number of Unicode scalar values of the
content); for every out-of-range index it returns (0, 0) rather than
failing. -/
theorem c10_count_words_and_chars_total (st : AppState) (idx : Nat) :
    (∀ note, st.notes[idx]? = some note →
      count_words_and_chars st idx =
        ((rust_split_whitespace note.content).length, note.content.length))
    ∧ (st.notes.length ≤ idx → count_words_and_chars st idx = (0, 0)) := by
  constructor
  · intro note hnote
    unfold count_words_and_chars
    rw [hnote]
  · intro hge
    unfold count_words_and_chars
    rw [List.getElem?_eq_none_iff.mpr hge]

/-- Witness for C10 at a concrete state: the in-range index 0 and the
out-of-range index 5. -/
theorem c10_witness :
    (st_w.notes[0]? = some (mk_note "x" "n/x.md")
      ∧ count_words_and_chars st_w 0 =
          ((rust_split_whitespace (mk_note "x" "n/x.md").content).length,
            (mk_note "x" "n/x.md").content.length))
    ∧ (st_w.notes.length ≤ 5 ∧ count_words_and_chars st_w 5 = (0, 0)) :=
  ⟨⟨by decide, (c10_count_words_and_chars_total st_w 0).1 (mk_note "x" "n/x.md") (by decide)⟩,
   ⟨by decide, (c10_count_words_and_chars_total st_w 5).2 (by decide)⟩⟩

/-- C9: on an autosave tick, a dirty note whose elapsed time reaches the
interval is written (dirty cleared and timestamp advanced on write
success, left as-is on failure); a note below the interval is untouched;
and the outcome at one note depends only on that note's own write outcome,
so one note's failure cannot block the others in the same tick. -/
theorem c9_autosave_tick (st : AppState) (now : Nat) (ok : Nat → Bool) (i : Nat) (note : Note)
    (h : st.notes[i]? = some note) :
    (note.unsaved_changes = true → st.autosave_interval ≤ now - note.last_saved →
      (autosave_notes st now ok).notes[i]? =
        some (if ok i then { note with unsaved_changes := false, last_saved := now } else note))
    ∧ (now - note.last_saved < st.autosave_interval →
      (autosave_notes st now ok).notes[i]? = some note)
    ∧ (∀ ok' : Nat → Bool, ok i = ok' i →
      (autosave_notes st now ok).notes[i]? = (autosave_notes st now ok').notes[i]?) := by
  have hnotes : ∀ f : Nat → Bool,
      (autosave_notes st now f).notes = autosave_go st.autosave_interval now f 0 st.notes :=
    fun _ => rfl
  refine ⟨?_, ?_, ?_⟩
  · intro hdirty hage
    rw [hnotes, getElem?_autosave_go, h, Option.map_some']
    have hcond : (note.unsaved_changes
        && decide (st.autosave_interval ≤ now - note.last_saved)) = true := by
      rw [hdirty, decide_eq_true hage, Bool.and_self]
    simp only [Nat.zero_add, hcond, if_true]
  · intro hage
    rw [hnotes, getElem?_autosave_go, h, Option.map_some']
    have hcond : (note.unsaved_changes
        && decide (st.autosave_interval ≤ now - note.last_saved)) = false := by
      have h2 : decide (st.autosave_interval ≤ now - note.last_saved) = false := by
        simp only [decide_eq_false_iff_not]
        omega
      rw [h2, Bool.and_false]
    simp only [hcond, Bool.false_eq_true, if_false]
  · intro ok' heq
    rw [hnotes, hnotes, getElem?_autosave_go, getElem?_autosave_go, h, Option.map_some',
      Option.map_some', Nat.zero_add, heq]

/-- Witness for C9 at a concrete state: a clean note under the interval is
untouched by the tick. -/
theorem c9_witness :
    st_w.notes[0]? = some (mk_note "x" "n/x.md")
    ∧ 0 - (mk_note "x" "n/x.md").last_saved < st_w.autosave_interval
    ∧ (autosave_notes st_w 0 (fun _ => true)).notes[0]? = some (mk_note "x" "n/x.md") :=
  ⟨by decide, by decide,
    (c9_autosave_tick st_w 0 (fun _ => true) 0 (mk_note "x" "n/x.md") (by decide)).2.1 (by decide)⟩

/-- C6: rename is guarded and atomic: an empty new title, or a new title
whose sanitized form equals the current title, performs no file operation
and changes no state (dirty flag included); and when the underlying
`fs::rename` fails, the whole state (note title, path and dirty flag
included) is left unchanged. -/
theorem c6_rename_guarded_atomic (st : AppState) (idx : Nat) (t : String) :
    (t = "" → (∀ ok, rename_note st idx t ok = st) ∧ rename_attempts_fs st idx t = false)
    ∧ (∀ note, st.notes[idx]? = some note → note.title = sanitize_title t →
        (∀ ok, rename_note st idx t ok = st) ∧ rename_attempts_fs st idx t = false)
    ∧ rename_note st idx t false = st := by
  refine ⟨?_, ?_, ?_⟩
  · intro ht
    constructor
    · intro ok
      unfold rename_note
      rw [if_pos ht]
    · unfold rename_attempts_fs
      rw [if_pos ht]
  · intro note hnote hteq
    constructor
    · intro ok
      unfold rename_note
      split
      · rfl
      · simp only [hnote]
        rw [if_pos hteq]
    · unfold rename_attempts_fs
      split
      · rfl
      · simp only [hnote]
        simp [hteq]
  · unfold rename_note
    split
    · rfl
    · cases hn : st.notes[idx]? with
      | none => simp only [hn]
      | some note =>
        simp only [hn]
        split
        · rfl
        · simp

/-- Witness for C6 at a concrete state: renaming note 0 to its own title
is a state-preserving no-op without a file operation, and a failed rename
of note 1 changes nothing. -/
theorem c6_witness :
    ((∀ ok, rename_note st_w 0 "x" ok = st_w) ∧ rename_attempts_fs st_w 0 "x" = false)
    ∧ rename_note st_w 1 "zz" false = st_w :=
  ⟨(c6_rename_guarded_atomic st_w 0 "x").2.1 (mk_note "x" "n/x.md") (by decide) (by decide),
   (c6_rename_guarded_atomic st_w 1 "zz").2.2⟩

/-- C7: deleting the selected note `i` moves the selection to the element
that is now last in Open Tabs after the removal (none when the tabs become
empty); deleting a note other than the selected one leaves the selection
referring to the same note, at its shifted index. -/
theorem c7_delete_selection (st : AppState) (i : Nat) (ht : tabs_ok st = true)
    (hi : i < st.notes.length) :
    (st.current_tab = some i →
      (delete_note st i).current_tab = (delete_note st i).open_tabs.getLast?)
    ∧ (∀ c, st.current_tab = some c → c ≠ i → c < st.notes.length →
        (delete_note st i).current_tab = some (if i < c then c - 1 else c)
        ∧ (delete_note st i).notes[if i < c then c - 1 else c]? = st.notes[c]?) := by
  constructor
  · intro hcur
    have hdc : delete_cur st i = (delete_tabs st i).getLast? := by
      unfold delete_cur
      rw [hcur]
      dsimp only
      rw [if_pos rfl]
    show (if (st.notes.eraseIdx i).isEmpty then none else delete_cur st i)
        = (delete_tabs st i).getLast?
    cases hemp : (st.notes.eraseIdx i).isEmpty with
    | false =>
      simp only [Bool.false_eq_true, if_false]
      exact hdc
    | true =>
      rw [if_pos rfl]
      have h0 : (st.notes.eraseIdx i).length = 0 := by
        rw [List.isEmpty_iff.mp hemp]
        rfl
      rw [List.length_eraseIdx, if_pos hi] at h0
      have htabs_nil : delete_tabs st i = [] := by
        unfold delete_tabs
        have hfil : st.open_tabs.filter (fun t => t ≠ i) = [] := by
          rw [List.filter_eq_nil_iff]
          intro a ha
          have hlt := (tabs_ok_iff st).mp ht a ha
          simp only [ne_eq, decide_not, Bool.not_eq_true', decide_eq_false_iff_not,
            Decidable.not_not]
          omega
        rw [hfil]
        rfl
      rw [htabs_nil]
      rfl
  · intro c hcur hne hclt
    have hdc : delete_cur st i = some (if i < c then c - 1 else c) := by
      unfold delete_cur
      rw [hcur]
      dsimp only
      rw [if_neg hne]
      by_cases hic : i < c
      · rw [if_pos hic, if_pos hic]
      · rw [if_neg hic, if_neg hic]
    have hnonempty : (st.notes.eraseIdx i).isEmpty = false := by
      cases hemp : (st.notes.eraseIdx i).isEmpty with
      | false => rfl
      | true =>
        have h0 : (st.notes.eraseIdx i).length = 0 := by
          rw [List.isEmpty_iff.mp hemp]
          rfl
        rw [List.length_eraseIdx, if_pos hi] at h0
        omega
    constructor
    · show (if (st.notes.eraseIdx i).isEmpty then none else delete_cur st i) = _
      rw [hnonempty]
      simp only [Bool.false_eq_true, if_false]
      exact hdc
    · show (st.notes.eraseIdx i)[if i < c then c - 1 else c]? = st.notes[c]?
      by_cases hic : i < c
      · rw [if_pos hic, List.getElem?_eraseIdx, if_neg (by omega),
          show c - 1 + 1 = c from by omega]
      · rw [if_neg hic, List.getElem?_eraseIdx, if_pos (by omega)]

/-- Witness for C7 at a concrete state: deleting the selected note 1 of
two moves the selection to the last remaining tab. -/
theorem c7_witness :
    tabs_ok st_w = true ∧ 1 < st_w.notes.length ∧ st_w.current_tab = some 1
    ∧ (delete_note st_w 1).current_tab = (delete_note st_w 1).open_tabs.getLast? :=
  ⟨by decide, by decide, by decide,
    (c7_delete_selection st_w 1 (by decide) (by decide)).1 (by decide)⟩

/-- C8: a second delete request overwrites the first: after
`requestDelete A` then `requestDelete B` with no confirm or cancel in
between, exactly one request is pending and it targets B; confirming it
deletes B (not A) and closes the dialog, returning the workflow to Idle. -/
theorem c8_second_request_overwrites (st : AppState) (A B : Nat) (hB : B < st.notes.length) :
    (request_delete (request_delete st A) B).confirmation_dialog.is_open = true
    ∧ (request_delete (request_delete st A) B).confirmation_dialog.action_type
        = DialogAction.DeleteNote
    ∧ (request_delete (request_delete st A) B).confirmation_dialog.target_index = some B
    ∧ (∃ stf, confirm_dialog (request_delete (request_delete st A) B) = some stf
        ∧ stf.notes = st.notes.eraseIdx B
        ∧ stf.confirmation_dialog.is_open = false) := by
  refine ⟨rfl, rfl, rfl, ?_⟩
  have hconf : confirm_dialog (request_delete (request_delete st A) B) =
      some (delete_note
        { request_delete (request_delete st A) B with
            confirmation_dialog :=
              { (request_delete (request_delete st A) B).confirmation_dialog with
                  is_open := false } } B) := by
    unfold confirm_dialog
    split
    · dsimp only [request_delete]
      unfold delete_note_checked
      rw [if_pos (show B < _ from hB)]
    · rename_i hfalse
      exact absurd rfl hfalse
  exact ⟨_, hconf, rfl, rfl⟩

/-- Witness for C8 at a concrete state: request on note 0, then note 1,
then confirm. -/
theorem c8_witness :
    1 < st_w.notes.length
    ∧ ((request_delete (request_delete st_w 0) 1).confirmation_dialog.is_open = true
        ∧ (request_delete (request_delete st_w 0) 1).confirmation_dialog.action_type
            = DialogAction.DeleteNote
        ∧ (request_delete (request_delete st_w 0) 1).confirmation_dialog.target_index = some 1
        ∧ (∃ stf, confirm_dialog (request_delete (request_delete st_w 0) 1) = some stf
            ∧ stf.notes = st_w.notes.eraseIdx 1
            ∧ stf.confirmation_dialog.is_open = false)) :=
  ⟨by decide, c8_second_request_overwrites st_w 0 1 (by decide)⟩

/-- C4 counterexample: on the empty string the renderer emits no block at
all (Rust `str::lines` yields no lines for an empty string), so
`render("")` is the empty block sequence, not a single Spacer; the markup
output is likewise the empty string. -/
theorem c4_counterexample :
    render_blocks "" = []
    ∧ render_blocks "" ≠ [Block.spacer]
    ∧ render_markdown_to_html "" = "" := by decide

/-- C4 as amended: `render("")` yields the empty block sequence (a single
Spacer arises only from an actual blank line, for example a lone newline);
`render("# Title")` is a single level-1 Heading with text Title;
`render("plain text")` is a single Paragraph with text plain text. -/
theorem c4_render_examples :
    render_blocks "" = []
    ∧ render_blocks "\n" = [Block.spacer]
    ∧ render_blocks "# Title" = [Block.heading 1 "Title"]
    ∧ render_blocks "plain text" = [Block.paragraph "plain text"]
    ∧ render_markdown_to_html "# Title" = "<h1>Title</h1>\n"
    ∧ render_markdown_to_html "plain text" = "<p>plain text</p>\n" := by decide

/-- C3 counterexample: the source sanitizes with Rust
`char::is_alphanumeric`, which accepts every Unicode alphanumeric, not
only `[A-Za-z0-9]`: the accented letter in a title survives sanitization,
so the result is not made of ASCII letters, digits and underscores. -/
theorem c3_counterexample :
    sanitize_title "é" = "é"
    ∧ ¬ (∀ c ∈ (sanitize_title "é").data, c.isAlphanum = true ∨ c = '_') := by decide

/-- On ASCII code points the modelled Rust predicate coincides with ASCII
alphanumericity. -/
theorem rust_alnum_ascii (c : Char) (h : c.toNat < 128) :
    rustIsAlphanumeric c = c.isAlphanum := by
  unfold rustIsAlphanumeric
  have hl : latin1_alnum c = false := by
    rw [Bool.eq_false_iff]
    intro hcon
    unfold latin1_alnum at hcon
    simp only [Bool.or_eq_true, decide_eq_true_eq, Bool.and_eq_true] at hcon
    omega
  rw [hl, Bool.or_false]

/-- C3 as amended: the sanitizer replaces every character that is neither
Unicode-alphanumeric (Rust `char::is_alphanumeric`) nor an underscore with
an underscore, so every character of the result is Unicode-alphanumeric or
an underscore; restricted to ASCII input — which is all the program itself
generates — every character of the result is an ASCII letter, an ASCII
digit, or an underscore, and the sanitized string plus `.md` forms the
filenames used by create and rename (definitions `create_path` and
`renamed_note`). -/
theorem c3_sanitize_characters (s : String) :
    (∀ c ∈ (sanitize_title s).data, rustIsAlphanumeric c = true ∨ c = '_')
    ∧ ((∀ c ∈ s.data, c.toNat < 128) →
        ∀ c ∈ (sanitize_title s).data, c.isAlphanum = true ∨ c = '_') := by
  have hmain : ∀ c ∈ (sanitize_title s).data,
      (rustIsAlphanumeric c = true ∨ c = '_')
      ∧ ∃ x ∈ s.data, c = if !(rustIsAlphanumeric x) && x ≠ '_' then '_' else x := by
    intro c hcmem
    have hcm : c ∈ s.data.map (fun c => if !(rustIsAlphanumeric c) && c ≠ '_' then '_' else c) :=
      hcmem
    obtain ⟨x, hx, rfl⟩ := List.mem_map.mp hcm
    refine ⟨?_, x, hx, rfl⟩
    by_cases h1 : rustIsAlphanumeric x = true
    · simp [h1]
    · by_cases h2 : x = '_'
      · simp [h2]
      · rw [Bool.not_eq_true] at h1
        simp [h1, h2]
  constructor
  · intro c hcmem
    exact (hmain c hcmem).1
  · intro hascii c hcmem
    obtain ⟨-, x, hx, rfl⟩ := hmain c hcmem
    by_cases hcond : (!(rustIsAlphanumeric x) && decide (x ≠ '_')) = true
    · rw [if_pos hcond]
      right
      rfl
    · rw [Bool.not_eq_true] at hcond
      rw [if_neg (by rw [hcond]; exact Bool.false_ne_true)]
      rcases Bool.and_eq_false_iff.mp hcond with h1 | h2
      · left
        rw [← rust_alnum_ascii x (hascii x hx)]
        simpa using h1
      · right
        simpa using h2

/-- Witness for C3 at a concrete ASCII input. -/
theorem c3_witness :
    (∀ c ∈ ("a b!" : String).data, c.toNat < 128)
    ∧ (∀ c ∈ (sanitize_title "a b!").data, c.isAlphanum = true ∨ c = '_') :=
  ⟨by decide, (c3_sanitize_characters "a b!").2 (by decide)⟩

/-- C5 counterexample: from an empty directory, create twice, delete the
first note, then create again: the generated title is `Note_2` (count 1 +
1), which collides with the surviving note, and the new in-memory note
carries the very same path — two Notes now share `n/Note_2.md` (and the
underlying `fs::write` truncated the survivor's file). -/
theorem c5_counterexample :
    paths_unique st_c5
    ∧ ¬ paths_unique (create_note st_c5 0 true)
    ∧ (create_note st_c5 0 true).notes.map Note.path = ["n/Note_2.md", "n/Note_2.md"] := by
  decide

/-- C5 as amended: create preserves path uniqueness provided the generated
path `Note_<count+1>.md` is not already the path of an existing note; the
guard is necessary because the generated title depends only on the count,
so after deletions it can collide with a survivor. -/
theorem c5_create_fresh_preserves_unique_paths (st : AppState) (now : Nat) (ok : Bool)
    (h : paths_unique st) (hfresh : ∀ n ∈ st.notes, n.path ≠ create_path st) :
    paths_unique (create_note st now ok) := by
  cases ok with
  | false => exact h
  | true =>
    show List.Pairwise (fun a b => a.path ≠ b.path) (create_sorted st now)
    have happ : List.Pairwise (fun a b : Note => a.path ≠ b.path)
        (st.notes ++ [created_note st now]) := by
      rw [List.pairwise_append]
      refine ⟨h, List.pairwise_singleton _ _, ?_⟩
      intro a ha b hb
      have hb' := List.mem_singleton.mp hb
      subst hb'
      exact hfresh a ha
    exact happ.perm (perm_sort_notes _).symm (fun hxy => Ne.symm hxy)

/-- Witness for C5 at a concrete state whose two paths differ from the
generated one. -/
theorem c5_witness :
    paths_unique st_w
    ∧ (∀ n ∈ st_w.notes, n.path ≠ create_path st_w)
    ∧ paths_unique (create_note st_w 0 true) :=
  ⟨by decide, by decide,
    c5_create_fresh_preserves_unique_paths st_w 0 true (by decide) (by decide)⟩

/-- C1 counterexample: in the sorted two-note state `a`, `b` with the tab
and the selection on note `a` (index 0), renaming `a` to `c` re-sorts the
collection to `b`, `c`; the source's post-sort lookup searches for the OLD
path after the note's path was already overwritten, falls back to the old
index, and leaves the tab and the selection at index 0 — which now holds
note `b` (path `n/b.md`), not the renamed note (path `n/c.md`, now at
index 1).  The open tab and the selection no longer refer to the note they
referred to before the rename. -/
theorem c1_counterexample :
    st_c1.open_tabs = [0]
    ∧ st_c1.current_tab = some 0
    ∧ (st_c1.notes[0]?).map Note.path = some "n/a.md"
    ∧ (rename_note st_c1 0 "c" true).open_tabs = [0]
    ∧ (rename_note st_c1 0 "c" true).current_tab = some 0
    ∧ ((rename_note st_c1 0 "c" true).notes[0]?).map Note.path = some "n/b.md"
    ∧ ((rename_note st_c1 0 "c" true).notes[1]?).map Note.path = some "n/c.md" := by
  decide

/-- C1 as amended: under every sequence of loop iterations (creates,
renames, deletes through the confirmation dialog, tab operations, edits
and saves) from a state satisfying the loaded-state invariant, the Note
Collection stays sorted by case-insensitive title and every Open Tabs
entry and the Current Selection is an in-range index into the collection;
however, after a rename re-sorts the collection, tabs and selection may
refer to a DIFFERENT note than before (see the counterexample), so only
membership, not identity, is preserved. -/
theorem c1_sorted_and_references_in_range (st st' : AppState)
    (h0 : StateInv st) (hr : Reach st st') :
    SortedNotes st'
    ∧ (∀ t ∈ st'.open_tabs, t < st'.notes.length)
    ∧ (∀ c, st'.current_tab = some c → c < st'.notes.length) := by
  obtain ⟨hs, ht, hc, -⟩ := inv_reach st st' h0 hr
  exact ⟨hs, (tabs_ok_iff st').mp ht, (cur_ok_iff st').mp hc⟩

/-- Witness for C1: one create step from the empty loaded state. -/
theorem c1_witness :
    StateInv st_empty
    ∧ (SortedNotes (create_note st_empty 0 true)
      ∧ (∀ t ∈ (create_note st_empty 0 true).open_tabs,
          t < (create_note st_empty 0 true).notes.length)
      ∧ (∀ c, (create_note st_empty 0 true).current_tab = some c →
          c < (create_note st_empty 0 true).notes.length)) :=
  ⟨by decide,
    c1_sorted_and_references_in_range st_empty (create_note st_empty 0 true) (by decide)
      (Relation.ReflTransGen.single (Step.create st_empty 0 true))⟩

/-- C2: no reachable state can make a core operation abort: every open tab
indexes a live note (the tab bar's `self.notes[tab_idx]` never goes out of
range), confirming the dialog never hits the out-of-range panic modelled
by `none` in `delete_note_checked`, a rename whose target index is no
longer present in the collection is a state-preserving no-op, and file-IO
failures are absorbed: a failed rename and a failed create both leave the
state unchanged. -/
theorem c2_core_operations_never_abort (st st' : AppState)
    (h0 : StateInv st) (hr : Reach st st') :
    (∀ t ∈ st'.open_tabs, st'.notes[t]? ≠ none)
    ∧ confirm_dialog st' ≠ none
    ∧ (∀ idx t ok, st'.notes.length ≤ idx → rename_note st' idx t ok = st')
    ∧ (∀ idx t, rename_note st' idx t false = st')
    ∧ (∀ now, create_note st' now false = st') := by
  obtain ⟨hs, ht, hc, hd⟩ := inv_reach st st' h0 hr
  refine ⟨?_, ?_, ?_, ?_, ?_⟩
  · intro t htmem hnone
    have h1 := (tabs_ok_iff st').mp ht t htmem
    have h2 := List.getElem?_eq_none_iff.mp hnone
    omega
  · unfold confirm_dialog
    split
    · rename_i hopen
      dsimp only
      split
      · rename_i idx hact htarget
        unfold delete_note_checked
        rw [if_pos ((dialog_ok_iff st').mp hd hopen idx htarget)]
        exact Option.some_ne_none _
      · exact Option.some_ne_none _
      · exact Option.some_ne_none _
      · exact Option.some_ne_none _
    · exact Option.some_ne_none _
  · intro idx t ok hge
    unfold rename_note
    split
    · rfl
    · rw [List.getElem?_eq_none_iff.mpr hge]
  · intro idx t
    unfold rename_note
    split
    · rfl
    · cases hn : st'.notes[idx]? with
      | none => simp only [hn]
      | some note =>
        simp only [hn]
        split
        · rfl
        · simp
  · intro now
    exact create_note_false st' now

/-- Witness for C2: one create step from the empty loaded state. -/
theorem c2_witness :
    StateInv st_empty
    ∧ ((∀ t ∈ (create_note st_empty 0 true).open_tabs,
          (create_note st_empty 0 true).notes[t]? ≠ none)
      ∧ confirm_dialog (create_note st_empty 0 true) ≠ none
      ∧ (∀ idx t ok, (create_note st_empty 0 true).notes.length ≤ idx →
          rename_note (create_note st_empty 0 true) idx t ok = create_note st_empty 0 true)
      ∧ (∀ idx t, rename_note (create_note st_empty 0 true) idx t false
          = create_note st_empty 0 true)
      ∧ (∀ now, create_note (create_note st_empty 0 true) now false
          = create_note st_empty 0 true)) :=
  ⟨by decide,
    c2_core_operations_never_abort st_empty (create_note st_empty 0 true) (by decide)
      (Relation.ReflTransGen.single (Step.create st_empty 0 true))⟩
